import Mathlib

set_option autoImplicit false

namespace ReusableFileSearch

/-- Strings are modelled as lists of characters. -/
abbrev Str := List Char

/-- ASCII whitespace characters matched by the regex class for whitespace. -/
def isSpace (c : Char) : Bool :=
  c = ' ' || c = '\t' || c = '\n' || c = '\r' || c = '\x0b' || c = '\x0c'

/-- Match a literal character sequence at the head of the input; on success
return the remaining input. -/
def dropLit : Str → Str → Option Str
  | [], s => some s
  | _ :: _, [] => none
  | l :: ls, c :: cs => if c = l then dropLit ls cs else none

/-- The opening token of the readfile directive. -/
def openTok : Str := ['\x7b', '\x7b', '<']

/-- The closing token of the readfile directive. -/
def closeTok : Str := ['>', '\x7d', '\x7d']

/-- The literal word readfile. -/
def readfileTok : Str := ['r', 'e', 'a', 'd', 'f', 'i', 'l', 'e']

/-- The literal parameter name. -/
def fileTok : Str := ['f', 'i', 'l', 'e']

/-- Embedding of READFILE_PATTERN (reusable_file_search.py line 24) matched at
the head of the input.  The regex is an open token, optional whitespace, the
word readfile, at least one whitespace character, the parameter name, optional
whitespace, an equals sign, optional whitespace, a double-quoted nonempty run
of non-quote characters, optional whitespace and a close token.  Every
repetition in the pattern is over a character class disjoint from the literal
that follows it, so greedy maximal munch is the exact matching semantics.
Returns the whole matched text, the captured parameter and the rest of the
input. -/
def matchDirectiveAt (s : Str) : Option (Str × Str × Str) :=
  match dropLit openTok s with
  | none => none
  | some s1 =>
    let w1 := s1.takeWhile isSpace
    let s2 := s1.dropWhile isSpace
    match dropLit readfileTok s2 with
    | none => none
    | some s3 =>
      let w2 := s3.takeWhile isSpace
      let s4 := s3.dropWhile isSpace
      if w2.length = 0 then none else
      match dropLit fileTok s4 with
      | none => none
      | some s5 =>
        let w3 := s5.takeWhile isSpace
        let s6 := s5.dropWhile isSpace
        match dropLit ['='] s6 with
        | none => none
        | some s7 =>
          let w4 := s7.takeWhile isSpace
          let s8 := s7.dropWhile isSpace
          match dropLit ['"'] s8 with
          | none => none
          | some s9 =>
            let ref := s9.takeWhile (fun c => !(c == '"'))
            let s10 := s9.dropWhile (fun c => !(c == '"'))
            if ref.length = 0 then none else
            match dropLit ['"'] s10 with
            | none => none
            | some s11 =>
              let w5 := s11.takeWhile isSpace
              let s12 := s11.dropWhile isSpace
              match dropLit closeTok s12 with
              | none => none
              | some s13 =>
                some (openTok ++ w1 ++ readfileTok ++ w2 ++ fileTok ++ w3 ++
                        ['='] ++ w4 ++ ['"'] ++ ref ++ ['"'] ++ w5 ++ closeTok,
                      ref, s13)

/-- Embedding of finditer over the directive pattern: scan left to right, at
each position try the pattern; on a match record the captured parameter and
continue after the match (matches do not overlap), otherwise advance one
character.  Fuel bounds the recursion; it is instantiated with the length of
the text, which suffices because every match consumes at least one
character. -/
def findMatchesAux : Nat → Str → List Str
  | 0, _ => []
  | _ + 1, [] => []
  | fuel + 1, c :: rest =>
    match matchDirectiveAt (c :: rest) with
    | some (_, ref, s) => ref :: findMatchesAux fuel s
    | none => findMatchesAux fuel rest

/-- All raw references captured by the directive pattern in a text, in
occurrence order. -/
def findMatches (s : Str) : List Str :=
  findMatchesAux s.length s

/-- Split a string on the slash character; adjacent slashes yield empty
components. -/
def splitSlash : Str → List Str
  | [] => [[]]
  | c :: rest =>
    match splitSlash rest with
    | [] => [[c]]
    | p :: ps => if c = '/' then [] :: p :: ps else (c :: p) :: ps

/-- Embedding of the name attribute of a pathlib PurePosixPath: the last
component of the path after dropping empty and single-dot components, or the
empty string when none remains. -/
def pathName (s : Str) : Str :=
  (((splitSlash s).filter (fun p => !(p == []) && !(p == ['.']))).getLast?).getD []

/-- The per-candidate matching predicate of the scanner's resolution loop
(reusable_file_search.py lines 67 to 74) and of the inline replacer (line
120): the candidate key ends with the raw reference, or the raw reference
ends with the key, or the two filenames coincide. -/
def matchKey (ref key : Str) : Bool :=
  List.isSuffixOf ref key || List.isSuffixOf key ref || pathName ref == pathName key

/-- Resolution of a raw reference against the known reusable paths: the first
key, in iteration order, satisfying the per-candidate predicate (lines 66 to
74 of the source). -/
def resolveRef (keys : List Str) (ref : Str) : Option Str :=
  keys.find? (fun key => matchKey ref key)

/-- Result of a scan: the usage mapping as an association list in key
insertion order, and the missing set as a duplicate-free list in insertion
order. -/
structure ScanResult where
  usages : List (Str × List Str)
  missing : List Str
deriving DecidableEq

/-- Append a use to the entry of the given key, leaving all other entries
unchanged (the dict update usages[matched_key].append on line 77). -/
def addUsage (m : List (Str × List Str)) (k : Str) (v : Str) : List (Str × List Str) :=
  m.map (fun e => if e.1 == k then (e.1, e.2 ++ [v]) else e)

/-- Adding to a Python set: insert the element only when it is not already
present (missing.add on line 80). -/
def setInsert (s : List Str) (x : Str) : List Str :=
  if x ∈ s then s else s ++ [x]

/-- Look up the usage sequence recorded for a key. -/
def lookupUsage (m : List (Str × List Str)) (k : Str) : Option (List Str) :=
  (m.find? (fun e => e.1 == k)).map (fun e => e.2)

/-- Processing of one directive occurrence of a readable content file (lines
61 to 80 of the source): resolve the raw reference; on success append the
content file to the matched key's usage sequence, otherwise add the raw
reference to the missing set. -/
def scanStep (keys : List Str) (cpath : Str) (acc : ScanResult) (ref : Str) : ScanResult :=
  match resolveRef keys ref with
  | some k => { acc with usages := addUsage acc.usages k cpath }
  | none => { acc with missing := setInsert acc.missing ref }

/-- Processing of all directive occurrences of one readable content file, in
occurrence order. -/
def scanText (keys : List Str) (cpath : Str) (text : Str) (acc : ScanResult) : ScanResult :=
  (findMatches text).foldl (scanStep keys cpath) acc

/-- Processing of one content file: an unreadable file (modelled as a missing
text) is skipped and contributes nothing (lines 54 to 59). -/
def scanFile (keys : List Str) (acc : ScanResult) (c : Str × Option Str) : ScanResult :=
  match c.2 with
  | none => acc
  | some text => scanText keys c.1 text acc

/-- Embedding of find_usages (lines 27 to 82): the usage map is seeded with
every known reusable path mapped to an empty sequence, then every content
file is scanned in traversal order.  The reusable keys are given in dict
insertion order; each content file carries its text, or none when reading it
fails. -/
def find_usages (keys : List Str) (contents : List (Str × Option Str)) : ScanResult :=
  contents.foldl (scanFile keys)
    { usages := keys.map (fun k => (k, [])), missing := [] }

/-- The filesystem as seen by the mutation operations: an association list
pairing each existing file's path with its text, or with none when the file
exists on disk but reading it fails (I/O or encoding error). -/
abbrev FS := List (Str × Option Str)

/-- First entry recorded for a path, if any. -/
def fsFind (fs : FS) (p : Str) : Option (Str × Option Str) :=
  fs.find? (fun e => e.1 == p)

/-- Whether a file exists on disk. -/
def fsExists (fs : FS) (p : Str) : Bool :=
  (fsFind fs p).isSome

/-- Reading a file: some text on success, none when the file is absent or
unreadable (read_text raising is caught and treated as a skip). -/
def fsRead (fs : FS) (p : Str) : Option Str :=
  match fsFind fs p with
  | some e => e.2
  | none => none

/-- Writing a file in place: overwrite the entry when present, create it
otherwise (write_text semantics). -/
def fsWrite (fs : FS) (p : Str) (t : Str) : FS :=
  if fsExists fs p then fs.map (fun e => if e.1 == p then (e.1, some t) else e)
  else fs ++ [(p, some t)]

/-- Deleting a file from disk (unlink). -/
def fsUnlink (fs : FS) (p : Str) : FS :=
  fs.filter (fun e => !(e.1 == p))

/-- Stripping trailing newline characters from the inlined text (the rstrip
call on line 122 of the source). -/
def stripTrailingNewlines (t : Str) : Str :=
  (t.reverse.dropWhile (fun c => c == '\n')).reverse

/-- Embedding of READFILE_PATTERN.sub with the replacer closure of
inline_singles (lines 113 to 126): every non-overlapping occurrence of the
directive whose parameter matches the candidate key is replaced by the
reusable text with trailing newlines stripped; any other occurrence is
reproduced verbatim (the replacer returns the whole match).  The returned
flag models the replaced variable captured by the closure: true when at
least one occurrence matched. -/
def substAux : Nat → Str → Str → Str → Str × Bool
  | 0, _, _, _ => ([], false)
  | _ + 1, [], _, _ => ([], false)
  | fuel + 1, c :: rest, rtext, key =>
    match matchDirectiveAt (c :: rest) with
    | some (whole, ref, s) =>
      let t := substAux fuel s rtext key
      if matchKey ref key then (stripTrailingNewlines rtext ++ t.1, true)
      else (whole ++ t.1, t.2)
    | none =>
      let t := substAux fuel rest rtext key
      (c :: t.1, t.2)

/-- Substitution pass over a whole content text. -/
def substKey (text rtext key : Str) : Str × Bool :=
  substAux text.length text rtext key

/-- Processing of one single-use candidate by the inliner (lines 98 to 139):
skip when the reusable file is gone from disk or either read fails; run the
substitution pass; when no occurrence matched, skip without writing or
deleting; otherwise write the new content text and delete the reusable
file. -/
def inlineOne (fs : FS) (key loc : Str) : FS :=
  if fsExists fs key then
    match fsRead fs key, fsRead fs loc with
    | some rtext, some ctext =>
      let r := substKey ctext rtext key
      if r.2 then fsUnlink (fsWrite fs loc r.1) key else fs
    | _, _ => fs
  else fs

/-- Lexicographic comparison of strings by character code, the order used by
Python's sorted on the candidate keys. -/
def strLe : Str → Str → Bool
  | [], _ => true
  | _ :: _, [] => false
  | a :: as, b :: bs => if a = b then strLe as bs else decide (a < b)

/-- The inliner's candidate selection (line 90): entries whose usage
sequence has length exactly one. -/
def singles (usages : List (Str × List Str)) : List (Str × List Str) :=
  usages.filter (fun e => e.2.length == 1)

/-- Embedding of inline_singles (lines 85 to 139): process the single-use
candidates in sorted key order; each candidate's sole recorded location is
the head of its usage sequence (locations[0] on line 100). -/
def inline_singles (usages : List (Str × List Str)) (fs : FS) : FS :=
  ((singles usages).mergeSort (fun x y => strLe x.1 y.1)).foldl
    (fun acc e => inlineOne acc e.1 (e.2.headD [])) fs

/-- The pruner's candidate selection (line 146): keys whose usage sequence
is empty. -/
def unusedKeys (usages : List (Str × List Str)) : List Str :=
  (usages.filter (fun e => e.2.length == 0)).map (fun e => e.1)

/-- Processing of one key by the pruner (lines 154 to 163): delete the file
when it is on disk, skip with a warning otherwise. -/
def delStep (fs : FS) (k : Str) : FS :=
  if fsExists fs k then fsUnlink fs k else fs

/-- Embedding of delete_unused (lines 142 to 163): delete every zero-use
key, in sorted order. -/
def delete_unused (usages : List (Str × List Str)) (fs : FS) : FS :=
  ((unusedKeys usages).mergeSort strLe).foldl delStep fs

/-- A token of the decomposition of a text induced by the directive scan:
either a single character outside any directive occurrence, or one whole
directive occurrence together with its captured parameter. -/
inductive Tok where
  | raw (c : Char)
  | dir (whole : Str) (ref : Str)
deriving DecidableEq

/-- Decomposition of a text into tokens, following exactly the
non-overlapping left-to-right matching discipline of finditer. -/
def tokenizeAux : Nat → Str → List Tok
  | 0, _ => []
  | _ + 1, [] => []
  | fuel + 1, c :: rest =>
    match matchDirectiveAt (c :: rest) with
    | some (whole, ref, s) => .dir whole ref :: tokenizeAux fuel s
    | none => .raw c :: tokenizeAux fuel rest

/-- Token decomposition of a whole text. -/
def tokenize (s : Str) : List Tok :=
  tokenizeAux s.length s

/-- The source text a token stands for. -/
def tokSource : Tok → Str
  | .raw c => [c]
  | .dir whole _ => whole

/-- The captured parameter of a directive token. -/
def tokRef : Tok → Option Str
  | .raw _ => none
  | .dir _ ref => some ref

/-- Whether a token is a directive occurrence matching the candidate key. -/
def isDirMatching (key : Str) : Tok → Bool
  | .raw _ => false
  | .dir _ ref => matchKey ref key

/-- What the substitution pass emits for one token: the stripped reusable
text for a matching directive occurrence, the original characters for
everything else. -/
def renderTok (rtext key : Str) : Tok → Str
  | .raw c => [c]
  | .dir whole ref => if matchKey ref key then stripTrailingNewlines rtext else whole

/-- Modelled from the words of the specification and of claim C1: a resolver
in which filename-only equality is used only as a fallback, after no
candidate at all suffix-matches in either direction.  Declared solely for
comparison with resolveRef, the resolver embedded from the source. -/
def resolveRefSpecFallback (keys : List Str) (ref : Str) : Option Str :=
  match keys.find? (fun key => List.isSuffixOf ref key || List.isSuffixOf key ref) with
  | some k => some k
  | none => keys.find? (fun key => pathName ref == pathName key)

/-- The uses one content file contributes to the usage sequence of one key:
nothing for an unreadable file, otherwise one copy of the content file's path
per directive occurrence resolving to that key. -/
def fileUses (keys : List Str) (k : Str) (c : Str × Option Str) : List Str :=
  match c.2 with
  | none => []
  | some t =>
    List.replicate ((findMatches t).countP (fun r => resolveRef keys r == some k)) c.1

/-- The full usage sequence of one key over a scan, file by file in traversal
order. -/
def usageList (keys : List Str) (k : Str) (contents : List (Str × Option Str)) : List Str :=
  (contents.map (fileUses keys k)).flatten

/-- Concrete raw reference used to exhibit the resolution order. -/
def cRefNote : Str := "a/note.md".toList

/-- Concrete reusable path agreeing with cRefNote only on the filename. -/
def cKeyName : Str := "x/note.md".toList

/-- Concrete reusable path of which cRefNote is a proper suffix. -/
def cKeySuffix : Str := "b/a/note.md".toList

/-- Concrete reusable paths for witnesses. -/
def cK0 : Str := "r/zero.md".toList

/-- Concrete reusable path with exactly one recorded use. -/
def cK1 : Str := "r/one.md".toList

/-- Concrete reusable path with two recorded uses. -/
def cK2 : Str := "r/two.md".toList

/-- Concrete reusable path of an inlining candidate. -/
def cTipKey : Str := "r/tip.md".toList

/-- Concrete content file path. -/
def cPagePath : Str := "c/page.md".toList

/-- Concrete reusable file body. -/
def cRtext : Str := "Tip body.\n".toList

/-- A directive with an empty double-quoted parameter. -/
def cDirEmptyParam : Str := "\x7b\x7b< readfile file=\"\" >\x7d\x7d".toList

/-- A content text whose single directive references a file matching
cTipKey by filename. -/
def cTipText : Str := "A \x7b\x7b< readfile file=\"tip.md\" >\x7d\x7d B".toList

/-- A content text with two directive occurrences both resolving to
cTipKey. -/
def cTwoDirText : Str :=
  "A \x7b\x7b< readfile file=\"tip.md\" >\x7d\x7d B \x7b\x7b< readfile file=\"content/r/tip.md\" >\x7d\x7d C".toList

/-- A content text whose single directive references a file that does not
match cTipKey under the heuristic. -/
def cNoMatchText : Str := "A \x7b\x7b< readfile file=\"other.md\" >\x7d\x7d B".toList

/-- A content text whose single directive resolves to no key at all. -/
def cGhostText : Str := "A \x7b\x7b< readfile file=\"content/r/ghost.md\" >\x7d\x7d B".toList

/-- A content text with no directive at all. -/
def cPlainText : Str := "No directives here.\n".toList

/-- Concrete usage map for the mutation witnesses. -/
def cUsages : List (Str × List Str) :=
  [(cK0, []), (cK1, [cPagePath]), (cK2, [cPagePath, cPagePath])]

/-- Concrete filesystem for the mutation witnesses. -/
def cFS : FS :=
  [(cK0, some cRtext), (cK1, some cRtext), (cK2, some cRtext),
    (cPagePath, some cTipText)]

/-- Concrete filesystem for the occurrence-not-found witness. -/
def cFSNoMatch : FS :=
  [(cTipKey, some cRtext), (cPagePath, some cNoMatchText)]

/-- Concrete scan state for the per-occurrence accounting witness. -/
def cAcc : ScanResult :=
  ScanResult.mk [(cTipKey, [])] []

/-- Concrete raw reference matching cTipKey by filename. -/
def cTipRef : Str := "tip.md".toList

/-- Concrete raw reference of which cTipKey is a suffix. -/
def cInnerRef : Str := "content/r/tip.md".toList

/-- Concrete raw reference resolving to no key. -/
def cGhostRef : Str := "content/r/ghost.md".toList

theorem dropLit_eq (l : Str) : ∀ s s' : Str, dropLit l s = some s' → s = l ++ s' := by
  induction l with
  | nil =>
    intro s s' h
    simp only [dropLit, Option.some.injEq] at h
    simp [h]
  | cons a as ih =>
    intro s s' h
    cases s with
    | nil => simp [dropLit] at h
    | cons c cs =>
      simp only [dropLit] at h
      split at h
      · next hc =>
        subst hc
        simpa using ih cs s' h
      · exact Option.noConfusion h

theorem matchDirectiveAt_spec {s whole ref s' : Str}
    (h : matchDirectiveAt s = some (whole, ref, s')) :
    whole ++ s' = s ∧ ref ≠ [] ∧ s'.length < s.length := by
  simp only [matchDirectiveAt] at h
  split at h
  · exact Option.noConfusion h
  rename_i s1 h1
  split at h
  · exact Option.noConfusion h
  rename_i s3 h3
  split at h
  · exact Option.noConfusion h
  rename_i hw2
  split at h
  · exact Option.noConfusion h
  rename_i s5 h5
  split at h
  · exact Option.noConfusion h
  rename_i s7 h7
  split at h
  · exact Option.noConfusion h
  rename_i s9 h9
  split at h
  · exact Option.noConfusion h
  rename_i hrefne
  split at h
  · exact Option.noConfusion h
  rename_i s11 h11
  split at h
  · exact Option.noConfusion h
  rename_i s13 h13
  simp only [Option.some.injEq, Prod.mk.injEq] at h
  obtain ⟨hwhole, href, hrest⟩ := h
  subst hwhole
  subst href
  subst hrest
  have e1 : s = openTok ++ s1 := dropLit_eq _ _ _ h1
  have e2 : s1.dropWhile isSpace = readfileTok ++ s3 := dropLit_eq _ _ _ h3
  have e3 : s3.dropWhile isSpace = fileTok ++ s5 := dropLit_eq _ _ _ h5
  have e4 : s5.dropWhile isSpace = ['='] ++ s7 := dropLit_eq _ _ _ h7
  have e5 : s7.dropWhile isSpace = ['"'] ++ s9 := dropLit_eq _ _ _ h9
  have e6 : s9.dropWhile (fun c => !(c == '"')) = ['"'] ++ s11 := dropLit_eq _ _ _ h11
  have e7 : s11.dropWhile isSpace = closeTok ++ s13 := dropLit_eq _ _ _ h13
  have t1 : s1.takeWhile isSpace ++ s1.dropWhile isSpace = s1 :=
    List.takeWhile_append_dropWhile isSpace s1
  have t2 : s3.takeWhile isSpace ++ s3.dropWhile isSpace = s3 :=
    List.takeWhile_append_dropWhile isSpace s3
  have t3 : s5.takeWhile isSpace ++ s5.dropWhile isSpace = s5 :=
    List.takeWhile_append_dropWhile isSpace s5
  have t4 : s7.takeWhile isSpace ++ s7.dropWhile isSpace = s7 :=
    List.takeWhile_append_dropWhile isSpace s7
  have t5 : s9.takeWhile (fun c => !(c == '"')) ++ s9.dropWhile (fun c => !(c == '"')) = s9 :=
    List.takeWhile_append_dropWhile (fun c => !(c == '"')) s9
  have t6 : s11.takeWhile isSpace ++ s11.dropWhile isSpace = s11 :=
    List.takeWhile_append_dropWhile isSpace s11
  refine ⟨?_, ?_, ?_⟩
  · rw [e1]
    simp only [List.append_assoc]
    rw [← e7, t6, ← e6, t5, ← e5, t4, ← e4, t3, ← e3, t2, ← e2, t1]
  · intro hnil
    rw [hnil] at hrefne
    simp at hrefne
  · have l1 := congrArg List.length e1
    have l2 := congrArg List.length e2
    have l3 := congrArg List.length e3
    have l4 := congrArg List.length e4
    have l5 := congrArg List.length e5
    have l6 := congrArg List.length e6
    have l7 := congrArg List.length e7
    have d1 : (s1.dropWhile isSpace).length <= s1.length := (List.dropWhile_sublist _).length_le
    have d2 : (s3.dropWhile isSpace).length <= s3.length := (List.dropWhile_sublist _).length_le
    have d3 : (s5.dropWhile isSpace).length <= s5.length := (List.dropWhile_sublist _).length_le
    have d4 : (s7.dropWhile isSpace).length <= s7.length := (List.dropWhile_sublist _).length_le
    have d5 : (s9.dropWhile (fun c => !(c == '"'))).length <= s9.length :=
      (List.dropWhile_sublist _).length_le
    have d6 : (s11.dropWhile isSpace).length <= s11.length := (List.dropWhile_sublist _).length_le
    simp only [List.length_append, openTok, readfileTok, fileTok, closeTok,
      List.length_cons, List.length_nil] at l1 l2 l3 l4 l5 l6 l7
    omega

theorem findMatchesAux_eq_tokenizeAux (fuel : Nat) :
    ∀ s : Str, findMatchesAux fuel s = (tokenizeAux fuel s).filterMap tokRef := by
  induction fuel with
  | zero => intro s; simp [findMatchesAux, tokenizeAux]
  | succ n ih =>
    intro s
    cases s with
    | nil => simp [findMatchesAux, tokenizeAux]
    | cons c rest =>
      simp only [findMatchesAux, tokenizeAux]
      cases h : matchDirectiveAt (c :: rest) with
      | none => simpa [tokRef] using ih rest
      | some t =>
        obtain ⟨whole, ref, s2⟩ := t
        simp [tokRef, ih s2]

theorem substAux_eq_tokenizeAux (rtext key : Str) (fuel : Nat) :
    ∀ s : Str,
      substAux fuel s rtext key =
        (((tokenizeAux fuel s).map (renderTok rtext key)).flatten,
          (tokenizeAux fuel s).any (isDirMatching key)) := by
  induction fuel with
  | zero => intro s; simp [substAux, tokenizeAux]
  | succ n ih =>
    intro s
    cases s with
    | nil => simp [substAux, tokenizeAux]
    | cons c rest =>
      simp only [substAux, tokenizeAux]
      cases h : matchDirectiveAt (c :: rest) with
      | none => simp [renderTok, isDirMatching, ih rest]
      | some t =>
        obtain ⟨whole, ref, s2⟩ := t
        by_cases hm : matchKey ref key
        · simp [hm, renderTok, isDirMatching, ih s2]
        · simp [hm, renderTok, isDirMatching, ih s2]

theorem tokenizeAux_source : ∀ (fuel : Nat) (s : Str), s.length ≤ fuel →
    ((tokenizeAux fuel s).map tokSource).flatten = s := by
  intro fuel
  induction fuel with
  | zero =>
    intro s hs
    have : s = [] := List.length_eq_zero.mp (Nat.le_zero.mp hs)
    subst this
    simp [tokenizeAux]
  | succ n ih =>
    intro s hs
    cases s with
    | nil => simp [tokenizeAux]
    | cons c rest =>
      simp only [tokenizeAux]
      cases h : matchDirectiveAt (c :: rest) with
      | none =>
        have hr : rest.length ≤ n := by
          simp only [List.length_cons] at hs
          omega
        simp [tokSource, ih rest hr]
      | some t =>
        obtain ⟨whole, ref, s2⟩ := t
        obtain ⟨e, _, hlt⟩ := matchDirectiveAt_spec h
        have hr : s2.length ≤ n := by
          simp only [List.length_cons] at hlt hs
          omega
        simp only [List.map_cons, List.flatten_cons, tokSource]
        rw [ih s2 hr, e]

theorem findMatches_eq_tokenize (s : Str) :
    findMatches s = (tokenize s).filterMap tokRef :=
  findMatchesAux_eq_tokenizeAux s.length s

theorem substKey_eq_tokenize (text rtext key : Str) :
    substKey text rtext key =
      (((tokenize text).map (renderTok rtext key)).flatten,
        (tokenize text).any (isDirMatching key)) :=
  substAux_eq_tokenizeAux rtext key text.length text

theorem tokenize_source (s : Str) :
    ((tokenize s).map tokSource).flatten = s :=
  tokenizeAux_source s.length s (Nat.le_refl _)

theorem addUsage_cons (x : Str × List Str) (xs : List (Str × List Str)) (k v : Str) :
    addUsage (x :: xs) k v =
      (if x.1 == k then (x.1, x.2 ++ [v]) else x) :: addUsage xs k v :=
  rfl

theorem lookupUsage_cons (x : Str × List Str) (xs : List (Str × List Str)) (k : Str) :
    lookupUsage (x :: xs) k = if x.1 = k then some x.2 else lookupUsage xs k := by
  by_cases h : x.1 = k
  · have hp : (fun e : Str × List Str => e.1 == k) x = true := by simp [h]
    simp [lookupUsage, List.find?_cons_of_pos _ hp, h]
  · have hp : ¬ (fun e : Str × List Str => e.1 == k) x = true := by simp [h]
    simp [lookupUsage, List.find?_cons_of_neg _ hp, h]

theorem lookupUsage_addUsage_self (m : List (Str × List Str)) (k v : Str) :
    lookupUsage (addUsage m k v) k = (lookupUsage m k).map (fun l => l ++ [v]) := by
  induction m with
  | nil => rfl
  | cons e es ih =>
    rw [addUsage_cons]
    by_cases h : e.1 = k
    · rw [lookupUsage_cons, lookupUsage_cons]
      simp [h]
    · rw [lookupUsage_cons, lookupUsage_cons]
      simp [h, ih]

theorem lookupUsage_addUsage_ne (m : List (Str × List Str)) (k k2 v : Str)
    (hne : ¬ k2 = k) :
    lookupUsage (addUsage m k v) k2 = lookupUsage m k2 := by
  induction m with
  | nil => rfl
  | cons e es ih =>
    rw [addUsage_cons, lookupUsage_cons, lookupUsage_cons]
    have h2 : ¬ k = k2 := fun hh => hne hh.symm
    by_cases h : e.1 = k
    · simp [h, h2, ih]
    · by_cases h3 : e.1 = k2
      · simp [h, h3, hne]
      · simp [h, h3, ih]

theorem keys_addUsage (m : List (Str × List Str)) (k v : Str) :
    (addUsage m k v).map Prod.fst = m.map Prod.fst := by
  induction m with
  | nil => rfl
  | cons e es ih =>
    rw [addUsage_cons]
    by_cases h : e.1 = k <;> simp [h, ih]

theorem keys_scanStep (keys : List Str) (c : Str) (acc : ScanResult) (ref : Str) :
    (scanStep keys c acc ref).usages.map Prod.fst = acc.usages.map Prod.fst := by
  cases h : resolveRef keys ref <;> simp [scanStep, h, keys_addUsage]

theorem missing_scanStep_resolved (keys : List Str) (c : Str) (acc : ScanResult)
    (ref k : Str) (h : resolveRef keys ref = some k) :
    (scanStep keys c acc ref).missing = acc.missing := by
  simp [scanStep, h]

theorem missing_scanStep_unresolved (keys : List Str) (c : Str) (acc : ScanResult)
    (ref : Str) (h : resolveRef keys ref = none) :
    (scanStep keys c acc ref).missing = setInsert acc.missing ref := by
  simp [scanStep, h]

theorem mem_setInsert_self (s : List Str) (x : Str) : x ∈ setInsert s x := by
  by_cases h : x ∈ s <;> simp [setInsert, h]

theorem mem_setInsert_of_mem (s : List Str) (x y : Str) (h : y ∈ s) :
    y ∈ setInsert s x := by
  by_cases hx : x ∈ s <;> simp [setInsert, hx, h]

theorem nodup_setInsert (s : List Str) (x : Str) (h : s.Nodup) :
    (setInsert s x).Nodup := by
  by_cases hx : x ∈ s
  · simpa [setInsert, hx] using h
  · have happ : (s ++ [x]).Nodup := by
      simp [List.nodup_append, h]
      intro hmem
      exact hx hmem
    simpa [setInsert, hx] using happ

theorem missing_scanStep_mono (keys : List Str) (c : Str) (acc : ScanResult)
    (ref x : Str) (h : x ∈ acc.missing) : x ∈ (scanStep keys c acc ref).missing := by
  cases hr : resolveRef keys ref with
  | none => simpa [scanStep, hr] using mem_setInsert_of_mem _ _ _ h
  | some k => simpa [scanStep, hr] using h

theorem nodup_scanStep (keys : List Str) (c : Str) (acc : ScanResult) (ref : Str)
    (h : acc.missing.Nodup) : (scanStep keys c acc ref).missing.Nodup := by
  cases hr : resolveRef keys ref with
  | none => simpa [scanStep, hr] using nodup_setInsert _ _ h
  | some k => simpa [scanStep, hr] using h

theorem missing_foldl_scanStep_mono (keys : List Str) (c : Str) (refs : List Str) :
    ∀ (acc : ScanResult) (x : Str), x ∈ acc.missing →
      x ∈ (refs.foldl (scanStep keys c) acc).missing := by
  induction refs with
  | nil => intro acc x h; exact h
  | cons r rs ih =>
    intro acc x h
    exact ih _ _ (missing_scanStep_mono keys c acc r x h)

theorem nodup_foldl_scanStep (keys : List Str) (c : Str) (refs : List Str) :
    ∀ acc : ScanResult, acc.missing.Nodup →
      (refs.foldl (scanStep keys c) acc).missing.Nodup := by
  induction refs with
  | nil => intro acc h; exact h
  | cons r rs ih =>
    intro acc h
    exact ih _ (nodup_scanStep keys c acc r h)

theorem keys_foldl_scanStep (keys : List Str) (c : Str) (refs : List Str) :
    ∀ acc : ScanResult,
      ((refs.foldl (scanStep keys c) acc).usages).map Prod.fst =
        acc.usages.map Prod.fst := by
  induction refs with
  | nil => intro acc; rfl
  | cons r rs ih =>
    intro acc
    rw [List.foldl_cons, ih, keys_scanStep]

theorem mem_missing_foldl_scanStep (keys : List Str) (c : Str) (refs : List Str) :
    ∀ (acc : ScanResult) (ref : Str), ref ∈ refs → resolveRef keys ref = none →
      ref ∈ (refs.foldl (scanStep keys c) acc).missing := by
  induction refs with
  | nil => intro acc ref h; exact absurd h (List.not_mem_nil _)
  | cons r rs ih =>
    intro acc ref hmem hres
    rcases List.mem_cons.mp hmem with he | ht
    · subst he
      refine missing_foldl_scanStep_mono keys c rs _ ref ?_
      rw [missing_scanStep_unresolved keys c acc ref hres]
      exact mem_setInsert_self _ _
    · exact ih _ _ ht hres

theorem lookup_foldl_scanStep (keys : List Str) (c k : Str) (refs : List Str) :
    ∀ acc : ScanResult,
      lookupUsage (refs.foldl (scanStep keys c) acc).usages k =
        (lookupUsage acc.usages k).map
          (fun l => l ++ List.replicate (refs.countP (fun r => resolveRef keys r == some k)) c) := by
  induction refs with
  | nil =>
    intro acc
    cases ho : lookupUsage acc.usages k <;> simp [ho]
  | cons r rs ih =>
    intro acc
    rw [List.foldl_cons, ih]
    cases hr : resolveRef keys r with
    | none =>
      have hu : (scanStep keys c acc r).usages = acc.usages := by simp [scanStep, hr]
      rw [hu]
      cases ho : lookupUsage acc.usages k <;> simp [ho, List.countP_cons, hr]
    | some k1 =>
      have hu : (scanStep keys c acc r).usages = addUsage acc.usages k1 c := by
        simp [scanStep, hr]
      rw [hu]
      by_cases hk : k1 = k
      · subst hk
        rw [lookupUsage_addUsage_self]
        cases ho : lookupUsage acc.usages k1 <;>
          simp [ho, List.countP_cons, hr, List.replicate_succ, List.append_assoc]
      · rw [lookupUsage_addUsage_ne _ _ _ _ (fun hh => hk hh.symm)]
        have hp : (some k1 == some k) = false := by
          simp
          intro hh
          exact hk hh
        cases ho : lookupUsage acc.usages k <;> simp [ho, List.countP_cons, hr, hp]

theorem lookup_scanFile (keys : List Str) (k : Str) (c : Str × Option Str) (acc : ScanResult) :
    lookupUsage (scanFile keys acc c).usages k =
      (lookupUsage acc.usages k).map (fun l => l ++ fileUses keys k c) := by
  obtain ⟨p, ot⟩ := c
  cases ot with
  | none =>
    cases ho : lookupUsage acc.usages k <;> simp [scanFile, fileUses, ho]
  | some t =>
    simpa [scanFile, scanText, fileUses] using lookup_foldl_scanStep keys p k (findMatches t) acc

theorem lookup_foldl_scanFile (keys : List Str) (k : Str) (contents : List (Str × Option Str)) :
    ∀ acc : ScanResult,
      lookupUsage (contents.foldl (scanFile keys) acc).usages k =
        (lookupUsage acc.usages k).map (fun l => l ++ usageList keys k contents) := by
  induction contents with
  | nil =>
    intro acc
    cases ho : lookupUsage acc.usages k <;> simp [ho, usageList]
  | cons c cs ih =>
    intro acc
    rw [List.foldl_cons, ih, lookup_scanFile]
    cases ho : lookupUsage acc.usages k <;> simp [ho, usageList, List.append_assoc]

theorem lookup_init (keys : List Str) (k : Str) (hk : k ∈ keys) :
    lookupUsage (keys.map (fun k2 => (k2, ([] : List Str)))) k = some [] := by
  induction keys with
  | nil => cases hk
  | cons k0 ks ih =>
    rw [List.map_cons, lookupUsage_cons]
    by_cases h : k0 = k
    · simp [h]
    · have hks : k ∈ ks := by
        rcases List.mem_cons.mp hk with he | ht
        · exact absurd he.symm h
        · exact ht
      simp [h, ih hks]

theorem scan_usage (keys : List Str) (contents : List (Str × Option Str)) (k : Str)
    (hk : k ∈ keys) :
    lookupUsage (find_usages keys contents).usages k = some (usageList keys k contents) := by
  unfold find_usages
  rw [lookup_foldl_scanFile, lookup_init keys k hk]
  rfl

theorem keys_scanFile (keys : List Str) (c : Str × Option Str) (acc : ScanResult) :
    (scanFile keys acc c).usages.map Prod.fst = acc.usages.map Prod.fst := by
  obtain ⟨p, ot⟩ := c
  cases ot with
  | none => rfl
  | some t => simpa [scanFile, scanText] using keys_foldl_scanStep keys p (findMatches t) acc

theorem keys_foldl_scanFile (keys : List Str) (contents : List (Str × Option Str)) :
    ∀ acc : ScanResult,
      ((contents.foldl (scanFile keys) acc).usages).map Prod.fst =
        acc.usages.map Prod.fst := by
  induction contents with
  | nil => intro acc; rfl
  | cons c cs ih =>
    intro acc
    rw [List.foldl_cons, ih, keys_scanFile]

theorem missing_scanFile_mono (keys : List Str) (c : Str × Option Str) (acc : ScanResult)
    (x : Str) (h : x ∈ acc.missing) : x ∈ (scanFile keys acc c).missing := by
  obtain ⟨p, ot⟩ := c
  cases ot with
  | none => exact h
  | some t => exact missing_foldl_scanStep_mono keys p (findMatches t) acc x h

theorem missing_foldl_scanFile_mono (keys : List Str) (contents : List (Str × Option Str)) :
    ∀ (acc : ScanResult) (x : Str), x ∈ acc.missing →
      x ∈ (contents.foldl (scanFile keys) acc).missing := by
  induction contents with
  | nil => intro acc x h; exact h
  | cons c cs ih =>
    intro acc x h
    exact ih _ _ (missing_scanFile_mono keys c acc x h)

theorem nodup_scanFile (keys : List Str) (c : Str × Option Str) (acc : ScanResult)
    (h : acc.missing.Nodup) : (scanFile keys acc c).missing.Nodup := by
  obtain ⟨p, ot⟩ := c
  cases ot with
  | none => exact h
  | some t => exact nodup_foldl_scanStep keys p (findMatches t) acc h

theorem nodup_foldl_scanFile (keys : List Str) (contents : List (Str × Option Str)) :
    ∀ acc : ScanResult, acc.missing.Nodup →
      (contents.foldl (scanFile keys) acc).missing.Nodup := by
  induction contents with
  | nil => intro acc h; exact h
  | cons c cs ih =>
    intro acc h
    exact ih _ (nodup_scanFile keys c acc h)

theorem mem_missing_foldl_scanFile (keys : List Str) (contents : List (Str × Option Str)) :
    ∀ (acc : ScanResult) (c t ref : _), (c, some t) ∈ contents → ref ∈ findMatches t →
      resolveRef keys ref = none →
      ref ∈ (contents.foldl (scanFile keys) acc).missing := by
  induction contents with
  | nil => intro acc c t ref h _ _; cases h
  | cons x xs ih =>
    intro acc c t ref hc hm hres
    rcases List.mem_cons.mp hc with he | ht
    · rw [List.foldl_cons]
      refine missing_foldl_scanFile_mono keys xs _ ref ?_
      rw [← he]
      exact mem_missing_foldl_scanStep keys c (findMatches t) acc ref hm hres
    · exact ih _ c t ref ht hm hres

theorem fsFind_cons (e : Str × Option Str) (fs : FS) (p : Str) :
    fsFind (e :: fs) p = if e.1 = p then some e else fsFind fs p := by
  by_cases h : e.1 = p
  · have hp : (fun x : Str × Option Str => x.1 == p) e = true := by simp [h]
    simp [fsFind, List.find?_cons_of_pos _ hp, h]
  · have hp : ¬ (fun x : Str × Option Str => x.1 == p) e = true := by simp [h]
    simp [fsFind, List.find?_cons_of_neg _ hp, h]

theorem fsFind_unlink (fs : FS) (k p : Str) :
    fsFind (fsUnlink fs k) p = if p = k then none else fsFind fs p := by
  induction fs with
  | nil => simp [fsUnlink, fsFind]
  | cons e es ih =>
    by_cases hek : e.1 = k
    · have hdrop : fsUnlink (e :: es) k = fsUnlink es k := by
        simp [fsUnlink, List.filter_cons, hek]
      rw [hdrop, ih, fsFind_cons]
      by_cases hpk : p = k
      · simp [hpk]
      · have hep : ¬ e.1 = p := by
          rw [hek]
          intro hh
          exact hpk hh.symm
        simp [hpk, hep]
    · have hkeep : fsUnlink (e :: es) k = e :: fsUnlink es k := by
        simp [fsUnlink, List.filter_cons, hek]
      rw [hkeep, fsFind_cons, fsFind_cons, ih]
      by_cases hep : e.1 = p
      · have hpk : ¬ p = k := by
          rw [← hep]
          exact hek
        simp [hep, hpk]
      · simp [hep]

theorem fsFind_mapWrite_ne (fs : FS) (q p : Str) (t : Str) (hne : ¬ p = q) :
    fsFind (fs.map (fun e => if e.1 == q then (e.1, some t) else e)) p = fsFind fs p := by
  induction fs with
  | nil => rfl
  | cons e es ih =>
    rw [List.map_cons, fsFind_cons, fsFind_cons, ih]
    by_cases heq : e.1 = q
    · have hep : ¬ e.1 = p := by
        rw [heq]
        intro hh
        exact hne hh.symm
      have hqp : ¬ q = p := fun hh => hne hh.symm
      simp [heq, hep, hqp]
    · simp [heq]

theorem fsFind_append_ne (fs : FS) (q p : Str) (t : Str) (hne : ¬ p = q) :
    fsFind (fs ++ [(q, some t)]) p = fsFind fs p := by
  induction fs with
  | nil =>
    have hqp : ¬ (q, some t).1 = p := by
      intro hh
      exact hne hh.symm
    simp only [List.nil_append, fsFind_cons, hqp, if_neg]
    rfl
  | cons e es ih =>
    rw [List.cons_append, fsFind_cons, fsFind_cons, ih]

theorem fsFind_write_ne (fs : FS) (q p : Str) (t : Str) (hne : ¬ p = q) :
    fsFind (fsWrite fs q t) p = fsFind fs p := by
  unfold fsWrite
  by_cases hex : fsExists fs q
  · rw [if_pos hex]
    exact fsFind_mapWrite_ne fs q p t hne
  · rw [if_neg hex]
    exact fsFind_append_ne fs q p t hne

theorem fsExists_of_read (fs : FS) (p : Str) (t : Str) (h : fsRead fs p = some t) :
    fsExists fs p = true := by
  unfold fsRead at h
  unfold fsExists
  cases hf : fsFind fs p with
  | none => rw [hf] at h; exact Option.noConfusion h
  | some e => simp

theorem delStep_find (fs : FS) (k p : Str) :
    fsFind (delStep fs k) p = if p = k then none else fsFind fs p := by
  unfold delStep
  by_cases hex : fsExists fs k
  · simp [hex, fsFind_unlink]
  · have hnone : fsFind fs k = none := by
      unfold fsExists at hex
      cases hf : fsFind fs k with
      | none => rfl
      | some e => rw [hf] at hex; simp at hex
    simp only [hex, Bool.false_eq_true, if_neg, if_false]
    by_cases hpk : p = k
    · simp [hpk, hnone]
    · simp [hpk]

theorem del_foldl (ks : List Str) : ∀ (fs : FS) (p : Str),
    fsFind (ks.foldl delStep fs) p = if p ∈ ks then none else fsFind fs p := by
  induction ks with
  | nil => intro fs p; simp
  | cons k ks ih =>
    intro fs p
    rw [List.foldl_cons, ih, delStep_find]
    by_cases h1 : p ∈ ks
    · simp [h1, List.mem_cons]
    · by_cases h2 : p = k
      · simp [h1, h2, List.mem_cons]
      · simp [h1, h2, List.mem_cons]

theorem inlineOne_frame (fs : FS) (key loc p : Str) (h1 : ¬ p = key) (h2 : ¬ p = loc) :
    fsFind (inlineOne fs key loc) p = fsFind fs p := by
  unfold inlineOne
  by_cases hex : fsExists fs key
  · simp only [hex, if_true]
    cases hr : fsRead fs key with
    | none => rfl
    | some rtext =>
      cases hc : fsRead fs loc with
      | none => rfl
      | some ctext =>
        simp only []
        by_cases hrep : (substKey ctext rtext key).2
        · simp only [hrep, if_true]
          rw [fsFind_unlink]
          simp only [h1, if_neg, if_false]
          exact fsFind_write_ne _ _ _ _ h2
        · simp [hrep]
  · simp [hex]

theorem inline_foldl_frame (cs : List (Str × List Str)) : ∀ (fs : FS) (p : Str),
    (∀ e ∈ cs, ¬ p = e.1 ∧ ¬ p = e.2.headD []) →
    fsFind (cs.foldl (fun acc e => inlineOne acc e.1 (e.2.headD [])) fs) p = fsFind fs p := by
  induction cs with
  | nil => intro fs p _; rfl
  | cons e es ih =>
    intro fs p h
    rw [List.foldl_cons]
    have he := h e (List.mem_cons_self e es)
    rw [ih _ _ (fun x hx => h x (List.mem_cons_of_mem e hx)),
      inlineOne_frame fs e.1 (e.2.headD []) p he.1 he.2]

theorem eq_of_mem_nodup_keys {l : List (Str × List Str)}
    (hnd : (l.map Prod.fst).Nodup) {a b : Str × List Str}
    (ha : a ∈ l) (hb : b ∈ l) (hfst : a.1 = b.1) : a = b := by
  induction l with
  | nil => cases ha
  | cons x xs ih =>
    rw [List.map_cons, List.nodup_cons] at hnd
    rcases List.mem_cons.mp ha with ha1 | ha2
    · rcases List.mem_cons.mp hb with hb1 | hb2
      · rw [ha1, hb1]
      · exfalso
        apply hnd.1
        rw [← ha1, hfst]
        exact List.mem_map_of_mem Prod.fst hb2
    · rcases List.mem_cons.mp hb with hb1 | hb2
      · exfalso
        apply hnd.1
        rw [← hb1, ← hfst]
        exact List.mem_map_of_mem Prod.fst ha2
      · exact ih hnd.2 ha2 hb2

/-- Claim C1, counterexample: the claim states that filename-only equality is
used only as a fallback when no candidate suffix-matches in either direction.
On the concrete input below the resolver picks the first key, which matches
the raw reference only by filename, even though the second key suffix-matches
it; the resolver modelled from the specification's fallback wording picks the
second key instead.  The claim as stated is therefore false on the code. -/
theorem claim_C1_counterexample :
    resolveRef [cKeyName, cKeySuffix] cRefNote = some cKeyName ∧
    (List.isSuffixOf cRefNote cKeySuffix || List.isSuffixOf cKeySuffix cRefNote) = true ∧
    (List.isSuffixOf cRefNote cKeyName || List.isSuffixOf cKeyName cRefNote) = false ∧
    pathName cRefNote = pathName cKeyName ∧
    ¬ cKeyName = cKeySuffix ∧
    resolveRefSpecFallback [cKeyName, cKeySuffix] cRefNote = some cKeySuffix := by
  decide

/-- Claim C1, amended: the scanner resolves a raw reference to the first
known canonical path, in iteration order, satisfying any of: the canonical
path is a suffix of the raw reference, the raw reference is a suffix of the
canonical path, or the two filenames are equal — the filename test is applied
per candidate together with the suffix tests, so an earlier candidate that
matches only by filename wins over a later candidate that suffix-matches. -/
theorem claim_C1_amended (keys : List Str) (ref k : Str)
    (h : resolveRef keys ref = some k) :
    (List.isSuffixOf ref k || List.isSuffixOf k ref || pathName ref == pathName k) = true ∧
    ∃ pre post, keys = pre ++ k :: post ∧
      ∀ k2 ∈ pre,
        (List.isSuffixOf ref k2 || List.isSuffixOf k2 ref ||
          pathName ref == pathName k2) = false := by
  rw [resolveRef] at h
  obtain ⟨hk, pre, post, heq, hall⟩ := List.find?_eq_some.mp h
  refine ⟨hk, pre, post, heq, ?_⟩
  intro k2 hk2
  have hn := hall k2 hk2
  simpa [matchKey] using hn

/-- Witness for the amended claim C1 at a concrete input. -/
theorem claim_C1_amended_witness :
    (List.isSuffixOf cRefNote cKeyName || List.isSuffixOf cKeyName cRefNote ||
      pathName cRefNote == pathName cKeyName) = true ∧
    ∃ pre post, [cKeyName, cKeySuffix] = pre ++ cKeyName :: post ∧
      ∀ k2 ∈ pre,
        (List.isSuffixOf cRefNote k2 || List.isSuffixOf k2 cRefNote ||
          pathName cRefNote == pathName k2) = false :=
  claim_C1_amended [cKeyName, cKeySuffix] cRefNote cKeyName (by decide)

/-- Claim C2: the pruner deletes exactly the zero-use keys — a file recorded
with one or more uses is left bit-for-bit untouched by delete_unused, and a
zero-use key is gone from disk afterwards — and the inliner touches only the
single-use keys and their sole recorded referencing files: any path that is
neither a single-use key nor the head of a single-use key's usage sequence
is left untouched by inline_singles. -/
theorem claim_C2 (usages : List (Str × List Str)) (fs : FS)
    (hnd : (usages.map Prod.fst).Nodup) :
    (∀ e ∈ usages, 1 ≤ e.2.length →
        fsFind (delete_unused usages fs) e.1 = fsFind fs e.1) ∧
    (∀ e ∈ usages, e.2.length = 0 →
        fsFind (delete_unused usages fs) e.1 = none) ∧
    (∀ p : Str, (∀ e ∈ singles usages, ¬ p = e.1 ∧ ¬ p = e.2.headD []) →
        fsFind (inline_singles usages fs) p = fsFind fs p) := by
  refine ⟨?_, ?_, ?_⟩
  · intro e he hlen
    unfold delete_unused
    rw [del_foldl]
    have hnot : ¬ e.1 ∈ (unusedKeys usages).mergeSort strLe := by
      rw [List.mem_mergeSort]
      intro hmem
      unfold unusedKeys at hmem
      rcases List.mem_map.mp hmem with ⟨e2, he2, hfst⟩
      rcases List.mem_filter.mp he2 with ⟨he2u, hlen2⟩
      have he2e : e2 = e := eq_of_mem_nodup_keys hnd he2u he hfst
      subst he2e
      simp only [beq_iff_eq] at hlen2
      omega
    simp [hnot]
  · intro e he hlen
    unfold delete_unused
    rw [del_foldl]
    have hmem : e.1 ∈ (unusedKeys usages).mergeSort strLe := by
      rw [List.mem_mergeSort]
      unfold unusedKeys
      refine List.mem_map.mpr ⟨e, ?_, rfl⟩
      refine List.mem_filter.mpr ⟨he, ?_⟩
      simp [hlen]
    simp [hmem]
  · intro p hp
    unfold inline_singles
    refine inline_foldl_frame _ fs p ?_
    intro e he
    exact hp e (List.mem_mergeSort.mp he)

/-- Witness for claim C2 at a concrete usage map and filesystem. -/
theorem claim_C2_witness :
    fsFind (delete_unused cUsages cFS) cK2 = fsFind cFS cK2 ∧
    fsFind (delete_unused cUsages cFS) cK0 = none ∧
    fsFind (inline_singles cUsages cFS) cK2 = fsFind cFS cK2 := by
  have h := claim_C2 cUsages cFS (by decide)
  exact ⟨h.1 (cK2, [cPagePath, cPagePath]) (by decide) (by decide),
    h.2.1 (cK0, []) (by decide) (by decide),
    h.2.2 cK2 (by decide)⟩

/-- Claim C3: the substitution pass of the inliner rewrites the content text
token by token — every directive occurrence matching the candidate reusable
file, however many there are, is replaced by the reusable file's text with
trailing newlines stripped, every other directive occurrence and every
character outside a directive is reproduced verbatim — and the reported flag
is true exactly when some occurrence matched.  The token decomposition tiles
the original text exactly, so unmatched directives are left character for
character unchanged. -/
theorem claim_C3 (text rtext key : Str) :
    (substKey text rtext key).1 = ((tokenize text).map (renderTok rtext key)).flatten ∧
    (substKey text rtext key).2 = (tokenize text).any (isDirMatching key) ∧
    ((tokenize text).map tokSource).flatten = text := by
  refine ⟨?_, ?_, tokenize_source text⟩
  · rw [substKey_eq_tokenize]
  · rw [substKey_eq_tokenize]

/-- Claim C4: when no directive occurrence of the referencing content file
matches the single-use candidate under the resolution heuristic, the inliner
leaves the filesystem entirely unchanged for that candidate: no write to the
content file and no deletion of the reusable file. -/
theorem claim_C4 (fs : FS) (key loc rtext ctext : Str)
    (h1 : fsRead fs key = some rtext)
    (h2 : fsRead fs loc = some ctext)
    (h3 : ∀ ref ∈ findMatches ctext, matchKey ref key = false) :
    inlineOne fs key loc = fs := by
  have hex : fsExists fs key = true := fsExists_of_read fs key rtext h1
  have hflag : (substKey ctext rtext key).2 = false := by
    have hs := substKey_eq_tokenize ctext rtext key
    rw [hs]
    simp only []
    rw [List.any_eq_false]
    intro t ht
    cases t with
    | raw c => simp [isDirMatching]
    | dir whole ref =>
      have hrefmem : ref ∈ findMatches ctext := by
        rw [findMatches_eq_tokenize]
        exact List.mem_filterMap.mpr ⟨Tok.dir whole ref, ht, rfl⟩
      simp [isDirMatching, h3 ref hrefmem]
  unfold inlineOne
  rw [if_pos hex, h1, h2]
  simp [hflag]

/-- Witness for claim C4 at a concrete filesystem whose content file holds
one directive that does not match the candidate. -/
theorem claim_C4_witness :
    fsRead cFSNoMatch cTipKey = some cRtext ∧
    fsRead cFSNoMatch cPagePath = some cNoMatchText ∧
    (∀ ref ∈ findMatches cNoMatchText, matchKey ref cTipKey = false) ∧
    inlineOne cFSNoMatch cTipKey cPagePath = cFSNoMatch :=
  ⟨by decide, by decide, by decide,
    claim_C4 cFSNoMatch cTipKey cPagePath cRtext cNoMatchText (by decide) (by decide)
      (by decide)⟩

/-- Claim C5: every reusable key discovered by the scan appears as a key of
the returned usage map, in order, and a key with zero matching references
appears with an empty sequence rather than being absent. -/
theorem claim_C5 (keys : List Str) (contents : List (Str × Option Str)) :
    (find_usages keys contents).usages.map Prod.fst = keys ∧
    ∀ k, k ∈ keys →
      (∀ c t, (c, some t) ∈ contents → ∀ ref ∈ findMatches t,
        ¬ resolveRef keys ref = some k) →
      lookupUsage (find_usages keys contents).usages k = some [] := by
  constructor
  · unfold find_usages
    rw [keys_foldl_scanFile]
    simp [Function.comp_def]
  · intro k hk hno
    rw [scan_usage keys contents k hk]
    have hempty : usageList keys k contents = [] := by
      unfold usageList
      rw [List.flatten_eq_nil_iff]
      intro l hl
      rcases List.mem_map.mp hl with ⟨c, hc, hfl⟩
      obtain ⟨p, ot⟩ := c
      cases ot with
      | none => rw [← hfl]; rfl
      | some t =>
        have hcount : ((findMatches t).countP (fun r => resolveRef keys r == some k)) = 0 := by
          rw [List.countP_eq_zero]
          intro r hr
          simp only [beq_iff_eq]
          exact hno p t hc r hr
        rw [← hfl]
        simp [fileUses, hcount]
    rw [hempty]

/-- Witness for claim C5: an orphan key over contents with no directive. -/
theorem claim_C5_witness :
    lookupUsage (find_usages [cK0] [(cPagePath, some cPlainText)]).usages cK0 = some [] := by
  refine (claim_C5 [cK0] [(cPagePath, some cPlainText)]).2 cK0 (by decide) ?_
  intro c t hc ref href
  have h := List.mem_singleton.mp hc
  have hsome : some t = some cPlainText := congrArg Prod.snd h
  have ht : t = cPlainText := Option.some.inj hsome
  subst ht
  have hempty : findMatches cPlainText = [] := by decide
  rw [hempty] at href
  cases href

theorem count_one_of_nodup {l : List Str} {x : Str} (hnd : l.Nodup) (hm : x ∈ l) :
    List.count x l = 1 := by
  induction l with
  | nil => cases hm
  | cons a l ih =>
    rw [List.nodup_cons] at hnd
    rw [List.count_cons]
    rcases List.mem_cons.mp hm with he | ht
    · subst he
      have hz : List.count x l = 0 := by
        rw [List.count_eq_zero]
        exact hnd.1
      simp [hz]
    · have hxa : ¬ x = a := by
        intro hh
        subst hh
        exact hnd.1 ht
      have hax : ¬ a = x := fun hh => hxa hh.symm
      simp [ih hnd.2 ht, hxa, hax]

/-- Claim C6: the missing set is duplicate-free, and every raw reference of a
readable content file that resolves to no known reusable key occurs exactly
once in it, however many times it occurs across the content files. -/
theorem claim_C6 (keys : List Str) (contents : List (Str × Option Str)) :
    (find_usages keys contents).missing.Nodup ∧
    ∀ c t ref, (c, some t) ∈ contents → ref ∈ findMatches t →
      resolveRef keys ref = none →
      List.count ref (find_usages keys contents).missing = 1 := by
  have hnd : (find_usages keys contents).missing.Nodup := by
    unfold find_usages
    exact nodup_foldl_scanFile keys contents _ (by simp)
  refine ⟨hnd, ?_⟩
  intro c t ref hc hm hres
  have hmem : ref ∈ (find_usages keys contents).missing := by
    unfold find_usages
    exact mem_missing_foldl_scanFile keys contents _ c t ref hc hm hres
  exact count_one_of_nodup hnd hmem

/-- Witness for claim C6: a ghost reference occurring in one content file. -/
theorem claim_C6_witness :
    List.count cGhostRef
      (find_usages [cTipKey] [(cPagePath, some cGhostText)]).missing = 1 :=
  (claim_C6 [cTipKey] [(cPagePath, some cGhostText)]).2 cPagePath cGhostText cGhostRef
    (by decide) (by decide) (by decide)

/-- Claim C7: a content file holding two directive occurrences that both
resolve to the same reusable key contributes that content file's path twice
to the key's usage sequence — occurrences are not deduplicated per file. -/
theorem claim_C7 (keys : List Str) (k c t r1 r2 : Str)
    (hk : k ∈ keys)
    (hm : findMatches t = [r1, r2])
    (h1 : resolveRef keys r1 = some k)
    (h2 : resolveRef keys r2 = some k) :
    lookupUsage (find_usages keys [(c, some t)]).usages k = some [c, c] := by
  rw [scan_usage keys _ k hk]
  have hcount : ([r1, r2].countP (fun r => resolveRef keys r == some k)) = 2 := by
    simp [List.countP_cons, h1, h2]
  have huse : usageList keys k [(c, some t)] = [c, c] := by
    unfold usageList
    simp [fileUses, hm, hcount, List.replicate_succ]
  rw [huse]

/-- Witness for claim C7: one content file referencing the same key twice. -/
theorem claim_C7_witness :
    lookupUsage (find_usages [cTipKey] [(cPagePath, some cTwoDirText)]).usages cTipKey =
      some [cPagePath, cPagePath] :=
  claim_C7 [cTipKey] cTipKey cPagePath cTwoDirText cTipRef cInnerRef
    (by decide) (by decide) (by decide) (by decide)

/-- Claim C8: an unreadable content file is skipped whole — the scan over the
content list with the unreadable file inserted anywhere equals the scan over
the list without it, so the file contributes no usage entries and no missing
entries and never aborts the scan. -/
theorem claim_C8 (keys : List Str) (pre post : List (Str × Option Str)) (c : Str) :
    find_usages keys (pre ++ (c, none) :: post) = find_usages keys (pre ++ post) := by
  unfold find_usages
  rw [List.foldl_append, List.foldl_append, List.foldl_cons]
  rfl

/-- Claim C9: one directive occurrence is accounted for in exactly one of the
two scan outputs: either the reference resolves to some key — then the
content file's path is appended to that key's usage sequence, no other key's
sequence changes and the missing set is unchanged — or it resolves to no key
and only the missing set gains the raw reference. -/
theorem claim_C9 (keys : List Str) (c : Str) (acc : ScanResult) (ref : Str) :
    (∃ k, resolveRef keys ref = some k ∧
      (scanStep keys c acc ref).missing = acc.missing ∧
      lookupUsage (scanStep keys c acc ref).usages k =
        (lookupUsage acc.usages k).map (fun l => l ++ [c]) ∧
      ∀ k2, ¬ k2 = k →
        lookupUsage (scanStep keys c acc ref).usages k2 = lookupUsage acc.usages k2) ∨
    (resolveRef keys ref = none ∧
      (scanStep keys c acc ref).usages = acc.usages ∧
      (scanStep keys c acc ref).missing = setInsert acc.missing ref) := by
  cases hr : resolveRef keys ref with
  | some k =>
    left
    have hu : (scanStep keys c acc ref).usages = addUsage acc.usages k c := by
      simp [scanStep, hr]
    refine ⟨k, rfl, by simp [scanStep, hr], ?_, ?_⟩
    · rw [hu]
      exact lookupUsage_addUsage_self _ _ _
    · intro k2 hk2
      rw [hu]
      exact lookupUsage_addUsage_ne _ _ _ _ hk2
  | none =>
    right
    exact ⟨rfl, by simp [scanStep, hr], by simp [scanStep, hr]⟩

/-- Witness for claim C9 at one concrete occurrence. -/
theorem claim_C9_witness :
    (∃ k, resolveRef [cTipKey] cTipRef = some k ∧
      (scanStep [cTipKey] cPagePath cAcc cTipRef).missing = cAcc.missing ∧
      lookupUsage (scanStep [cTipKey] cPagePath cAcc cTipRef).usages k =
        (lookupUsage cAcc.usages k).map (fun l => l ++ [cPagePath]) ∧
      ∀ k2, ¬ k2 = k →
        lookupUsage (scanStep [cTipKey] cPagePath cAcc cTipRef).usages k2 =
          lookupUsage cAcc.usages k2) ∨
    (resolveRef [cTipKey] cTipRef = none ∧
      (scanStep [cTipKey] cPagePath cAcc cTipRef).usages = cAcc.usages ∧
      (scanStep [cTipKey] cPagePath cAcc cTipRef).missing =
        setInsert cAcc.missing cTipRef) :=
  claim_C9 [cTipKey] cPagePath cAcc cTipRef

/-- Claim C10: a directive whose double-quoted file parameter is empty is not
recognized by the pattern at all — the captured run between the quotes must
be nonempty — so scanning a content file holding exactly such a directive
yields no usage entry and no missing entry. -/
theorem claim_C10 :
    findMatches cDirEmptyParam = [] ∧
    find_usages [cTipKey] [(cPagePath, some cDirEmptyParam)] =
      ScanResult.mk [(cTipKey, [])] [] := by
  decide

end ReusableFileSearch
